import Mathlib

/-!
# Verification of the ohmymem-core memory-file storage engine

Shallow embedding of the memory-file storage engine of `ohmymem-core`
(`internal/infrastructure/persistence/memory_repository.go` and
`internal/domain/memory_service.go`), with theorems settling the claims
about its specification.

Modelling conventions:
* A Go `string` is modelled as `List Char`.  All relevant operations in the
  source are byte-wise over ASCII data, where Go bytes and `Char`s agree;
  `len` is modelled as `List.length`.
* A Go `time.Time` is modelled by its RFC3339 rendering (`List Char`); the
  single call `Format(time.RFC3339)` is therefore the identity, and the zero
  `time.Time` (never formatted by the code under study) is modelled by `[]`.
* Go's `strings.Index` (which returns `-1` when absent) is modelled by
  `goIndex : List Char → List Char → Int`.
* The two Go regexps (`anchoredEntryRegex`, `legacyEntryRegex`) are embedded
  as deterministic matchers.  Each quantifier in those patterns is forced:
  greedy character classes are followed by a literal outside the class, the
  lazy `(.+?)` groups are resolved by scanning for the first position where
  the rest of the pattern matches, and the trailing greedy `([^\n]+) -->`
  resolves to "line ends with ` -->`".  The matchers below implement exactly
  those resolutions, line-anchored as the `(?m)^...$` pattern dictates.
* File I/O is modelled by explicit state: file contents passed in and out,
  an `FS` record of the real and temporary paths for the atomic-write
  protocol, and outcome parameters standing for the success or failure of
  each system call.  Locking, context cancellation and `slog` output are
  elided except for the legacy-format warning, which is returned as a flag.
-/

/-- Model of `"## "`, the heading marker used by the section locator. -/
def hh : List Char := "## ".toList

/-- The fixed prefix of an anchored entry's first line. -/
def entryIdMark : List Char := "<!-- entry-id: ".toList

/-- The literal `(*Rationale:` part of both entry regexps (preceded by a space). -/
def rationaleMark : List Char := " (*Rationale:".toList

/-- ASCII whitespace as recognised by `strings.TrimSpace` (`unicode.IsSpace`,
restricted to the ASCII range, which is all the data in play). -/
def isSpaceChar (c : Char) : Bool :=
  c = ' ' || c = '\t' || c = '\n' || c = '\r' || c = '\x0b' || c = '\x0c'

/-- Characters matched by the regexp class `[a-f0-9-]` of `anchoredEntryRegex`. -/
def isIdChar (c : Char) : Bool :=
  ('a' ≤ c && c ≤ 'f') || ('0' ≤ c && c ≤ '9') || c = '-'

/-- Drop the prefix `p` from `s`, or `none` when `p` is not a prefix;
used to embed literal parts of the regexps. -/
def dropPre : List Char → List Char → Option (List Char)
  | [], s => some s
  | _ :: _, [] => none
  | p :: ps, c :: cs => if p = c then dropPre ps cs else none

/-- First index at which `pat` occurs in a string (innermost model of
Go's `strings.Index`). -/
def firstIdx (pat : List Char) : List Char → Option Nat
  | [] => if pat.isPrefixOf [] then some 0 else none
  | c :: t => if pat.isPrefixOf (c :: t) then some 0 else (firstIdx pat t).map (· + 1)

/-- Go `strings.Index(s, pat)`: first occurrence or `-1`. -/
def goIndex (s pat : List Char) : Int :=
  match firstIdx pat s with
  | some n => Int.ofNat n
  | none => -1

/-- Go `strings.Contains(s, pat)` (implemented as `Index(s, pat) ≥ 0`). -/
def strContains (s pat : List Char) : Bool :=
  (firstIdx pat s).isSome

/-- Go `strings.Split(s, "\n")`: the newline-separated segments of `s`
(never empty; a trailing newline yields a final empty segment). -/
def splitOnNL : List Char → List (List Char)
  | [] => [[]]
  | c :: t =>
    if c = '\n' then [] :: splitOnNL t
    else
      match splitOnNL t with
      | [] => [[c]]
      | l :: ls => (c :: l) :: ls

/-- Go `strings.TrimSpace`. -/
def trimSpace (s : List Char) : List Char :=
  ((s.dropWhile isSpaceChar).reverse.dropWhile isSpaceChar).reverse

/-- Go `strings.TrimPrefix`. -/
def trimPre (p s : List Char) : List Char :=
  match dropPre p s with
  | some r => r
  | none => s

/-- Go `strings.Trim(s, "[]")`: remove leading and trailing `[` / `]`. -/
def trimBrackets (s : List Char) : List Char :=
  ((s.dropWhile fun c => c = '[' || c = ']').reverse.dropWhile
    fun c => c = '[' || c = ']').reverse

/-- Model of `domain.Entry`: a single memory record.  `createdAt` holds the RFC3339
rendering of the Go `time.Time` (see the module conventions); the zero time
is `[]` (`zeroTime`). -/
structure Entry where
  id : List Char
  tag : List Char
  tagName : List Char
  content : List Char
  rationale : List Char
  createdAt : List Char
deriving DecidableEq, Repr

/-- The zero `time.Time` left in entries whose parse does not set `CreatedAt`. -/
def zeroTime : List Char := []

/-- Model of `domain.SectionType` is a Go string type; its values are strings. -/
abbrev SectionType := List Char

def sectionConstraints : SectionType := "constraints".toList
def sectionDecisions : SectionType := "decisions".toList
def sectionPatterns : SectionType := "patterns".toList
def sectionAntiPatterns : SectionType := "anti-patterns".toList
def sectionNote : SectionType := "note".toList

/-- Model of `SectionType.IsValid`. -/
def isValidSectionType (s : SectionType) : Bool :=
  s = sectionConstraints || s = sectionDecisions || s = sectionPatterns ||
    s = sectionAntiPatterns || s = sectionNote

/-- Model of `domain.Section`. -/
structure Section where
  type : SectionType
  entries : List Entry
deriving DecidableEq, Repr

/-- Model of `domain.AppendInput`. -/
structure AppendInput where
  category : List Char
  tag : List Char
  content : List Char
  rationale : List Char
deriving DecidableEq, Repr

/-- The sentinel errors of `domain/errors.go` that validation can return. -/
inductive ValErr where
  | invalidCategory
  | invalidTag
  | invalidContent
  | invalidRationale
  | forbiddenContent
  | listItem
deriving DecidableEq, Repr

/-- Model of `domain.ValidateContent`: forbidden substrings checked in source order,
then the list-item-shape check on the trimmed content. -/
def ValidateContent (content : List Char) : Option ValErr :=
  if strContains content ("\n".toList) then some .forbiddenContent
  else if strContains content ("\r".toList) then some .forbiddenContent
  else if strContains content ("###".toList) then some .forbiddenContent
  else if strContains content ("```".toList) then some .forbiddenContent
  else if strContains content ("<".toList) then some .forbiddenContent
  else if strContains content (">".toList) then some .forbiddenContent
  else if ("- ".toList).isPrefixOf (trimSpace content)
       || ("* ".toList).isPrefixOf (trimSpace content) then some .listItem
  else none

/-- Model of `MemoryService.ValidateInput`.  Note: the category default to `"note"`
is applied to the by-value local copy only, exactly as in the Go source. -/
def ValidateInput (input : AppendInput) : Option ValErr :=
  let category := if input.category = [] then "note".toList else input.category
  if isValidSectionType category = false then some .invalidCategory
  else if input.tag.length = 0 then some .invalidTag
  else if 50 < input.tag.length then some .invalidTag
  else if input.content.length = 0 then some .invalidContent
  else if 2000 < input.content.length then some .invalidContent
  else
    match ValidateContent input.content with
    | some e => some e
    | none => if 500 < input.rationale.length then some .invalidRationale else none

/-- Model of `MemoryService.PrepareEntry`: wrap the tag in brackets unless it already
starts with `[`, and strip brackets for the tag name. -/
def PrepareEntry (input : AppendInput) (id nowT : List Char) : Entry :=
  let tag := if ("[".toList).isPrefixOf input.tag then input.tag
             else "[".toList ++ input.tag ++ "]".toList
  { id := id
    tag := tag
    tagName := trimBrackets tag
    content := input.content
    rationale := input.rationale
    createdAt := nowT }

/-- Model of `persistence.capitalize`: upper-case the first byte. -/
def capitalize : List Char → List Char
  | [] => []
  | c :: t => c.toUpper :: t

/-- Model of `persistence.findSectionStart`: `strings.Index(content, "## " + section)`. -/
def findSectionStart (content sect : List Char) : Int :=
  goIndex content (hh ++ sect)

/-- Model of `persistence.findSectionEnd`.  Scans the newline-split segments of
`content[start+3:]` for the first one beginning with `"## "` and returns
`start + 3 + strings.Index(remaining, line)`; `content`'s length otherwise.
Go's `Index` cannot return `-1` here (the segment always occurs in the text
it was split from), so the `Int.toNat` cast is exact on every reachable
input. -/
def findSectionEnd (content : List Char) (start : Nat) : Nat :=
  let remaining := content.drop (start + 3)
  match (splitOnNL remaining).find? (fun line => hh.isPrefixOf line) with
  | some line => start + 3 + (goIndex remaining line).toNat
  | none => content.length

/-- Model of `persistence.extractSection`: the section's slice with the heading line
stripped, or `""` when the heading is absent.  (The Go source also guards
`end == -1`, which `findSectionEnd` never returns; that dead branch is
dropped.) -/
def extractSection (content sectionType : List Char) : List Char :=
  let sect := capitalize sectionType
  let start := findSectionStart content sect
  if start = -1 then []
  else
    let endPos := findSectionEnd content start.toNat
    let sectionContent := (content.take endPos).drop start.toNat
    trimPre (hh ++ sect ++ "\n".toList) sectionContent

/-- Model of `persistence.renderEntry`: the 4-line anchored block. -/
def renderEntry (entry : Entry) : List Char :=
  entryIdMark ++ entry.id ++ ", tag: ".toList ++ entry.tag ++
    ", time: ".toList ++ entry.createdAt ++ " -->\n".toList ++
  "* **[".toList ++ entry.tagName ++ "]** ".toList ++ entry.content ++
  (if entry.rationale = [] then []
   else rationaleMark ++ " ".toList ++ entry.rationale ++ "*)".toList) ++
  "\n<!-- entry-end -->".toList

/-- One raw match of `anchoredEntryRegex`: submatch groups 1-6
(id, bracketed tag list, time, tag name, content, optional rationale). -/
structure RawMatch where
  g1 : List Char
  g2 : List Char
  g3 : List Char
  g4 : List Char
  g5 : List Char
  g6 : Option (List Char)
deriving DecidableEq, Repr

/-- Line 1 of `anchoredEntryRegex`:
`^<!-- entry-id: ([a-f0-9-]+), tag: \[([^\]]+)\], time: ([^\n]+) -->` then
a newline.  The greedy classes stop at the following literal; the greedy
`([^\n]+)` before ` -->` resolves to "the line ends with ` -->`". -/
def matchLine1 (line : List Char) : Option (List Char × List Char × List Char) :=
  match dropPre entryIdMark line with
  | none => none
  | some r1 =>
    let g1 := r1.takeWhile isIdChar
    if g1 = [] then none
    else
      match dropPre (", tag: [".toList) (r1.drop g1.length) with
      | none => none
      | some r2 =>
        let g2 := r2.takeWhile (fun c => c ≠ ']')
        if g2 = [] then none
        else
          match dropPre ("], time: ".toList) (r2.drop g2.length) with
          | none => none
          | some r3 =>
            if 5 ≤ r3.length && (" -->".toList).isSuffixOf r3 then
              some (g1, g2, r3.take (r3.length - 4))
            else none

/-- Does the lazy-rationale branch ` \(\*Rationale:(.+?)\*\)` match the whole
remaining text `r` (so that the line ends right after `*)`): `r` must carry
the `(*Rationale:` marker and end with `*)` with a non-empty capture. -/
def rationaleOk (r : List Char) : Bool :=
  match dropPre rationaleMark r with
  | none => false
  | some r3 => decide (3 ≤ r3.length) && ("*)".toList).isSuffixOf r3

/-- The captured rationale of a successful `rationaleOk` text (group with the
leading space after the colon, as the regexp captures it). -/
def rationaleCapture (r : List Char) : Option (List Char) :=
  match dropPre rationaleMark r with
  | none => none
  | some r3 => some (r3.take (r3.length - 2))

/-- The lazy `(.+?)(?: \(\*Rationale:(.+?)\*\))?` tail of the entry-body
pattern against the rest of a line: grow the content one character at a time
(`acc` holds it reversed) and stop at the first position where either the
rationale branch closes the line or the line ends. -/
def crScan : List Char → List Char → Option (List Char × Option (List Char))
  | acc, [] => if acc = [] then none else some (acc.reverse, none)
  | [], c :: t => crScan [c] t
  | a :: as, c :: t =>
    if rationaleOk (c :: t) then
      some ((a :: as).reverse, rationaleCapture (c :: t))
    else crScan (c :: a :: as) t

/-- The entry-body line pattern shared by line 2 of `anchoredEntryRegex` and
by `legacyEntryRegex`: `\* \*\*\[([^\]]+)\]\*\* (.+?)(?: \(\*Rationale:(.+?)\*\))?`
anchored to consume the whole line. -/
def matchEntryBody (line : List Char) :
    Option (List Char × List Char × Option (List Char)) :=
  match dropPre ("* **[".toList) line with
  | none => none
  | some r1 =>
    let g1 := r1.takeWhile (fun c => c ≠ ']')
    if g1 = [] then none
    else
      match dropPre ("]** ".toList) (r1.drop g1.length) with
      | none => none
      | some rest =>
        match crScan [] rest with
        | none => none
        | some (g2, g3) => some (g1, g2, g3)

/-- One 3-line window of `anchoredEntryRegex` (the `\n`-joined three lines of
the pattern; the final `^<!-- entry-end -->$` forces an exact last line). -/
def matchAnchoredBlock (l1 l2 l3 : List Char) : Option RawMatch :=
  match matchLine1 l1 with
  | none => none
  | some (g1, g2, g3) =>
    match matchEntryBody l2 with
    | none => none
    | some (g4, g5, g6) =>
      if l3 = "<!-- entry-end -->".toList then some ⟨g1, g2, g3, g4, g5, g6⟩
      else none

/-- Model of `FindAllStringSubmatch` of `anchoredEntryRegex` over the block's lines:
every match starts at a line start (`(?m)^`), matches are non-overlapping,
and scanning resumes after each match. -/
def scanAnchoredAux : Nat → List (List Char) → List RawMatch
  | _, [] => []
  | skip + 1, _ :: t => scanAnchoredAux skip t
  | 0, l1 :: t =>
    match t with
    | l2 :: l3 :: _ =>
      match matchAnchoredBlock l1 l2 l3 with
      | some m => m :: scanAnchoredAux 2 t
      | none => scanAnchoredAux 0 t
    | _ => []

def scanAnchored (ls : List (List Char)) : List RawMatch :=
  scanAnchoredAux 0 ls

/-- Model of `persistence.parseV1Anchored`: `none` models the Go
`"no anchored entries found"` error.  The entry assembly copies the Go code
exactly: `ID` from group 1, `Tag`/`TagName` from group 2, `Content` from
group 3 (the time submatch), `Rationale` from group 4 (the tag-name
submatch); groups 5 and 6 are unused and `CreatedAt` is never assigned. -/
def parseV1Anchored (block : List Char) : Option (List Entry) :=
  let ms := scanAnchored (splitOnNL block)
  if ms = [] then none
  else
    some (ms.map fun m =>
      { id := m.g1
        tag := "[".toList ++ m.g2 ++ "]".toList
        tagName := m.g2
        content := m.g3
        rationale := m.g4
        createdAt := zeroTime })

/-- The loop body of `persistence.parseLegacyInline`: trim the line, keep it
if it starts with `* **[`, and match `legacyEntryRegex`; an absent rationale
group is the empty string, `ID`/`CreatedAt` stay zero. -/
def legacyLineParse (line0 : List Char) : Option Entry :=
  let line := trimSpace line0
  if ("* **[".toList).isPrefixOf line then
    match matchEntryBody line with
    | some (g1, g2, g3) =>
      some { id := []
             tag := "[".toList ++ g1 ++ "]".toList
             tagName := g1
             content := g2
             rationale := g3.getD []
             createdAt := zeroTime }
    | none => none
  else none

/-- Model of `persistence.parseLegacyInline`: apply `legacyLineParse` to every line. -/
def parseLegacyInline (block : List Char) : List Entry :=
  (splitOnNL block).filterMap legacyLineParse

/-- Model of `persistence.createInitialContent`, with `tsNow` the formatted
`timeProvider.Now()`. -/
def createInitialContent (tsNow : List Char) : List Char :=
  "---\nschema_version: \"0.1\"\nentry_format: \"anchored\"\ncreated_at: \"".toList ++
    tsNow ++
    "\"\n---\n\n## Constraints\n\n## Decisions\n\n## Patterns\n\n## Anti-Patterns\n".toList

/-- Equality of `Except` results is decidable (needed to evaluate the
repository operations on concrete inputs). -/
instance {ε α : Type} [DecidableEq ε] [DecidableEq α] : DecidableEq (Except ε α) :=
  fun x y =>
    match x, y with
    | .ok a, .ok b =>
      if h : a = b then isTrue (h ▸ rfl)
      else isFalse (fun he => h (Except.ok.inj he))
    | .error a, .error b =>
      if h : a = b then isTrue (h ▸ rfl)
      else isFalse (fun he => h (Except.error.inj he))
    | .ok _, .error _ => isFalse (fun he => Except.noConfusion he)
    | .error _, .ok _ => isFalse (fun he => Except.noConfusion he)

/-- State of the memory file as read: absent, present with contents, or a
read failing with a non-`IsNotExist` I/O error. -/
inductive FileState where
  | absent
  | present (s : List Char)
  | ioError
deriving DecidableEq, Repr

/-- Model of `persistence.readFile`: an absent file reads as `""`. -/
def readFile : FileState → Except Unit (List Char)
  | .absent => .ok []
  | .present s => .ok s
  | .ioError => .error ()

/-- Model of `persistence.GetSection`, with the `slog.Warn("legacy format detected")`
side effect returned as a `Bool` flag.  The file is given as a `FileState`. -/
def GetSection (fs : FileState) (sectionType : SectionType) :
    Except Unit (Section × Bool) :=
  match readFile fs with
  | .error e => .error e
  | .ok content =>
    if content = [] then .ok (⟨sectionType, []⟩, false)
    else
      let sectionBlock := extractSection content sectionType
      if sectionBlock = [] then .ok (⟨sectionType, []⟩, false)
      else
        match parseV1Anchored sectionBlock with
        | some entries => .ok (⟨sectionType, entries⟩, false)
        | none =>
          let legacyEntries := parseLegacyInline sectionBlock
          if legacyEntries = [] then .ok (⟨sectionType, []⟩, false)
          else .ok (⟨sectionType, legacyEntries⟩, true)

/-- The error of `persistence.AppendEntry`'s locate step. -/
inductive AppendError where
  | sectionNotFound (sect : List Char)
deriving DecidableEq, Repr

/-- The text-transformation core of `persistence.AppendEntry`: given the
current file contents (empty for a missing file) it initialises, renders,
locates and splices, returning the new contents to be written atomically.
`tsNow` is the formatted clock value used by `createInitialContent`.
The lock acquisition/release and the atomic write around this core are
modelled separately (`atomicWrite`). -/
def AppendEntry (content0 : List Char) (sectionType : SectionType)
    (entry : Entry) (tsNow : List Char) : Except AppendError (List Char) :=
  let content := if content0 = [] then createInitialContent tsNow else content0
  let renderedEntry := renderEntry entry
  let sect := capitalize sectionType
  let sectionStart := findSectionStart content sect
  if sectionStart = -1 then .error (.sectionNotFound sect)
  else
    let start := sectionStart.toNat
    let sectionEnd := findSectionEnd content start
    .ok (content.take start ++ ((content.take sectionEnd).drop start) ++
         renderedEntry ++ "\n".toList ++ content.drop sectionEnd)

/-- Model of `MemoryService.AppendMemory`: prepare the entry and append it under
`SectionType(input.Category)` (the caller's category string, unvalidated and
undefaulted). -/
def AppendMemory (content : List Char) (input : AppendInput)
    (id nowT tsNow : List Char) : Except AppendError (List Char) :=
  AppendEntry content input.category (PrepareEntry input id nowT) tsNow

/-- The two on-disk paths `atomicWrite` touches: the real file and the
sibling `.tmp` file. -/
structure FS where
  real : Option (List Char)
  tmp : Option (List Char)
deriving DecidableEq, Repr

/-- The outcome of `atomicWrite`'s two system calls: `os.WriteFile` to the
temporary path may fail (leaving arbitrary or no partial data there), or
`os.Rename` may fail (changing neither path), or both succeed. -/
inductive WriteOutcome where
  | writeFileFail (leftover : Option (List Char))
  | renameFail
  | ok
deriving DecidableEq, Repr

/-- Model of `persistence.atomicWrite`: write the temporary file, rename it over the
real path, and on either failure remove the temporary file and report the
error.  `os.WriteFile` touches only the temporary path; a failed `os.Rename`
changes neither path; a successful `os.Rename` atomically moves the
temporary contents over the real path.  Returns the final state and whether
an error was returned. -/
def atomicWrite (fs : FS) (content : List Char) (oc : WriteOutcome) : FS × Bool :=
  match oc with
  | .writeFileFail leftover =>
    let afterWrite : FS := { fs with tmp := leftover }
    let afterRemove : FS := { afterWrite with tmp := none }
    (afterRemove, true)
  | .renameFail =>
    let afterWrite : FS := { fs with tmp := some content }
    let afterRename : FS := afterWrite
    let afterRemove : FS := { afterRename with tmp := none }
    (afterRemove, true)
  | .ok =>
    let afterWrite : FS := { fs with tmp := some content }
    ({ real := afterWrite.tmp, tmp := none }, false)

/-- Join lines with newlines (inverse of `splitOnNL` on newline-free lines);
used to state claims about blocks made of given lines. -/
def joinNL : List (List Char) → List Char
  | [] => []
  | [l] => l
  | l :: ls => l ++ '\n' :: joinNL ls

/-- A legacy-format line `* **[TagName]** Content (*Rationale: R*)` built
from its parts, as the specification describes the legacy inline format. -/
def legacyLineOf (it : List Char × List Char × List Char) : List Char :=
  "* **[".toList ++ it.1 ++ "]** ".toList ++ it.2.1 ++
    " (*Rationale: ".toList ++ it.2.2 ++ "*)".toList

/-- The entry `parseLegacyInline` produces for a legacy line with parts
`(tagName, content, rationale)`: empty id, zero time, and the rationale
captured together with the separating space after the colon. -/
def legacyParsedEntry (it : List Char × List Char × List Char) : Entry :=
  { id := []
    tag := "[".toList ++ it.1 ++ "]".toList
    tagName := it.1
    content := it.2.1
    rationale := ' ' :: it.2.2
    createdAt := zeroTime }

/-- Modelled from the claim wording for `findSectionEnd`: the byte offset of
the first line after the heading line that begins with `"## "`, or the
length of the document if no such line exists. -/
def specEndAux : List (List Char) → Nat → Option Nat
  | [], _ => none
  | l :: ls, n => if hh.isPrefixOf l then some n else specEndAux ls (n + l.length + 1)

/-- Modelled from the claim wording for `findSectionEnd` (see `specEndAux`). -/
def findSectionEndSpec (content : List Char) (start : Nat) : Nat :=
  let headLine := (content.drop start).takeWhile (fun c => c ≠ '\n')
  let afterHead := start + headLine.length + 1
  match specEndAux (splitOnNL (content.drop afterHead)) afterHead with
  | some n => n
  | none => content.length

/-- The headings of a document: its lines that begin with `"## "`. -/
def headingsOf (doc : List Char) : List (List Char) :=
  (splitOnNL doc).filter (fun l => hh.isPrefixOf l)

/-- The four section headings, in document order. -/
def fourHeadings : List (List Char) :=
  ["## Constraints".toList, "## Decisions".toList,
   "## Patterns".toList, "## Anti-Patterns".toList]

/-! ### Concrete inputs used by individual claims -/

/-- A valid entry with every field populated (C1). -/
def c1Entry : Entry :=
  { id := "abc-123".toList, tag := "[Api]".toList, tagName := "Api".toList,
    content := "Use hexagonal architecture".toList,
    rationale := "For separation of concerns".toList,
    createdAt := "2024-01-15T10:30:00Z".toList }

/-- What `parseV1Anchored` actually returns for `renderEntry c1Entry` (C1). -/
def c1Parsed : Entry :=
  { id := "abc-123".toList, tag := "[Api]".toList, tagName := "Api".toList,
    content := "2024-01-15T10:30:00Z".toList,
    rationale := "Api".toList, createdAt := [] }

/-- The entry of the spec's concrete scenario (C2). -/
def c2Entry : Entry :=
  { id := "0a1b".toList, tag := "[API]".toList, tagName := "API".toList,
    content := "Use RESTful conventions".toList, rationale := [],
    createdAt := "2024-01-15T10:30:00Z".toList }

/-- A fixed clock value (C2). -/
def c2Now : List Char := "2024-01-15T10:30:00Z".toList

/-- A small well-formed document (C3 witness). -/
def c3Doc : List Char := "## Constraints\nX y\n## Decisions\n".toList

/-- An entry to append (C3 witness). -/
def c3Entry : Entry :=
  { id := "b2c3".toList, tag := "[Storage]".toList, tagName := "Storage".toList,
    content := "Use Markdown for storage".toList, rationale := [],
    createdAt := "2024-02-01T08:00:00Z".toList }

/-- A document without a `## Constraints` heading (C4 witness). -/
def c4Doc : List Char := "## Decisions\n".toList

/-- A document whose constraints section holds one legacy line (C6). -/
def c6Doc : List Char :=
  "## Constraints\n* **[API]** Use X (*Rationale: because*)".toList

/-- The entry `GetSection` returns for `c6Doc` (C6): note the rationale
keeps the space after the colon. -/
def c6ParsedEntry : Entry :=
  { id := [], tag := "[API]".toList, tagName := "API".toList,
    content := "Use X".toList, rationale := " because".toList, createdAt := [] }

/-- A file-system state with a committed document (C7 witness). -/
def c7Fs : FS := { real := some ("old contents".toList), tmp := none }

/-- A document in which the text of the next heading line also occurs
earlier inside another line (C8). -/
def c8Doc : List Char := "## Constraints\nx ## Decisions\n## Decisions\n".toList

/-- A document with no such earlier occurrence (C8 witness). -/
def c8GoodDoc : List Char := "## Constraints\nA\n## Decisions\n".toList

/-- An input with an empty category (C10 witness). -/
def c10Inp : AppendInput :=
  { category := [], tag := "API".toList,
    content := "Use RESTful conventions".toList, rationale := [] }

/-- The front-matter text of `createInitialContent` before the timestamp. -/
def fmHead : List Char :=
  "---\nschema_version: \"0.1\"\nentry_format: \"anchored\"\ncreated_at: \"".toList

/-- The text of `createInitialContent` after the timestamp: the closing
front matter and the four empty section headings. -/
def fmTail : List Char :=
  "\"\n---\n\n## Constraints\n\n## Decisions\n\n## Patterns\n\n## Anti-Patterns\n".toList

/-- A valid input with content of exactly 2000 characters (C5 witness). -/
def c5InpOk : AppendInput :=
  { category := "constraints".toList, tag := "API".toList,
    content := List.replicate 2000 'a', rationale := [] }

/-- The same input with 2001 characters of content (C5 witness). -/
def c5InpLong : AppendInput :=
  { category := "constraints".toList, tag := "API".toList,
    content := List.replicate 2001 'a', rationale := [] }

/-- An input whose content carries a forbidden character (C5 witness). -/
def c5InpBad : AppendInput :=
  { category := "constraints".toList, tag := "API".toList,
    content := "a < b".toList, rationale := [] }

/-- An input whose content is shaped like a list item (C5 witness). -/
def c5InpList : AppendInput :=
  { category := "constraints".toList, tag := "API".toList,
    content := "- do the thing".toList, rationale := [] }

/-! ## Helper lemmas -/

theorem isPrefixOf_eq_true_iff {p s : List Char} :
    p.isPrefixOf s = true ↔ p <+: s :=
  List.isPrefixOf_iff_prefix

theorem dropPre_eq_some_iff {p s r : List Char} : dropPre p s = some r ↔ s = p ++ r := by
  induction p generalizing s with
  | nil => simp [dropPre]
  | cons a ps ih =>
    cases s with
    | nil => simp [dropPre]
    | cons c cs =>
      by_cases h : a = c
      · subst h
        simp [dropPre, ih]
      · simp [dropPre, h, Ne.symm h]

theorem dropPre_append (p r : List Char) : dropPre p (p ++ r) = some r :=
  dropPre_eq_some_iff.mpr rfl

theorem dropPre_eq_none_of_no_match {p s : List Char} (h : ¬ p <+: s) :
    dropPre p s = none := by
  cases hd : dropPre p s with
  | none => rfl
  | some r =>
    exact absurd ⟨r, (dropPre_eq_some_iff.mp hd).symm⟩ h

theorem isPrefixOf_false_of_head {p : List Char} {c d : Char} (r : List Char)
    (hp : p.head? = some c) (hne : c ≠ d) : p.isPrefixOf (d :: r) = false := by
  cases p with
  | nil => simp at hp
  | cons a ps =>
    simp at hp
    subst hp
    simp [List.isPrefixOf, hne]

theorem firstIdx_le {p s : List Char} {n : Nat} (h : firstIdx p s = some n) :
    n ≤ s.length := by
  induction s generalizing n with
  | nil =>
    rw [firstIdx] at h
    split at h
    · simp at h
      omega
    · simp at h
  | cons c t ih =>
    rw [firstIdx] at h
    split at h
    · simp at h
      omega
    · simp only [Option.map_eq_some'] at h
      obtain ⟨m, hm, hmn⟩ := h
      have := ih hm
      simp
      omega

theorem firstIdx_eq_some {p s : List Char} {n : Nat}
    (h1 : p <+: s.drop n) (h2 : ∀ q, q < n → ¬ p <+: s.drop q) :
    firstIdx p s = some n := by
  induction s generalizing n with
  | nil =>
    cases n with
    | zero =>
      rw [firstIdx]
      simp at h1
      simp [h1, List.isPrefixOf]
    | succ m =>
      exact absurd (by simpa using h1) (by simpa using h2 0 (Nat.succ_pos m))
  | cons c t ih =>
    cases n with
    | zero =>
      rw [firstIdx, if_pos (isPrefixOf_eq_true_iff.mpr (by simpa using h1))]
    | succ m =>
      rw [firstIdx,
        if_neg (by simpa [isPrefixOf_eq_true_iff] using h2 0 (Nat.succ_pos m))]
      rw [ih (by simpa using h1)
        (fun q hq => by simpa using h2 (q + 1) (by omega))]
      rfl

theorem firstIdx_of_some {p s : List Char} {n : Nat} (h : firstIdx p s = some n) :
    p <+: s.drop n := by
  induction s generalizing n with
  | nil =>
    rw [firstIdx] at h
    split at h
    case isTrue hpre =>
      simp at h
      subst h
      simpa using isPrefixOf_eq_true_iff.mp hpre
    case isFalse => simp at h
  | cons c t ih =>
    rw [firstIdx] at h
    split at h
    case isTrue hpre =>
      simp at h
      subst h
      simpa using isPrefixOf_eq_true_iff.mp hpre
    case isFalse =>
      simp only [Option.map_eq_some'] at h
      obtain ⟨m, hm, hmn⟩ := h
      subst hmn
      simpa using ih hm

theorem firstIdx_append {p x y : List Char} {c : Char}
    (hp : p.head? = some c) (hx : c ∉ x) :
    firstIdx p (x ++ y) = (firstIdx p y).map (x.length + ·) := by
  induction x with
  | nil =>
    rw [List.nil_append]
    cases h : firstIdx p y <;> simp [h]
  | cons d xs ih =>
    have hdc : c ≠ d := fun h => hx (by simp [h])
    rw [List.cons_append, firstIdx, if_neg (by simp [isPrefixOf_false_of_head _ hp hdc])]
    rw [ih (fun h => hx (List.mem_cons_of_mem _ h))]
    cases firstIdx p y with
    | none => simp
    | some v =>
      simp
      omega

theorem splitOnNL_ne_nil (s : List Char) : splitOnNL s ≠ [] := by
  cases s with
  | nil => simp [splitOnNL]
  | cons c t =>
    rw [splitOnNL]
    by_cases h : c = '\n'
    · simp [h]
    · simp only [h, if_false]
      cases splitOnNL t <;> simp

theorem splitOnNL_no_nl {l : List Char} (h : '\n' ∉ l) : splitOnNL l = [l] := by
  induction l with
  | nil => rfl
  | cons c t ih =>
    have hc : ¬ c = '\n' := fun e => h (by simp [e])
    rw [splitOnNL, if_neg hc, ih (fun m => h (List.mem_cons_of_mem _ m))]

theorem splitOnNL_line {l : List Char} (r : List Char) (h : '\n' ∉ l) :
    splitOnNL (l ++ '\n' :: r) = l :: splitOnNL r := by
  induction l with
  | nil => simp [splitOnNL]
  | cons c t ih =>
    have hc : ¬ c = '\n' := fun e => h (by simp [e])
    rw [List.cons_append, splitOnNL, if_neg hc,
      ih (fun m => h (List.mem_cons_of_mem _ m))]

theorem dropWhile_eq_self_of_head {p : Char → Bool} {s : List Char}
    (h : ∀ a, s.head? = some a → p a = false) : s.dropWhile p = s := by
  cases s with
  | nil => rfl
  | cons c t =>
    rw [List.dropWhile_cons, h c rfl]
    simp

theorem trimSpace_eq_self {s : List Char}
    (h1 : ∀ a, s.head? = some a → isSpaceChar a = false)
    (h2 : ∀ a, s.getLast? = some a → isSpaceChar a = false) : trimSpace s = s := by
  unfold trimSpace
  rw [dropWhile_eq_self_of_head h1,
    dropWhile_eq_self_of_head (fun a ha => h2 a (by rwa [← List.head?_reverse])),
    List.reverse_reverse]

theorem takeWhile_append_of_all {p : Char → Bool} {xs : List Char} (ys : List Char)
    (hx : ∀ a ∈ xs, p a = true) (hy : ∀ a, ys.head? = some a → p a = false) :
    (xs ++ ys).takeWhile p = xs := by
  induction xs with
  | nil =>
    cases ys with
    | nil => rfl
    | cons b bs =>
      rw [List.nil_append, List.takeWhile_cons, hy b rfl]
      simp
  | cons a as ih =>
    rw [List.cons_append, List.takeWhile_cons, hx a (List.mem_cons_self a as)]
    simp only [if_true]
    rw [ih (fun b hb => hx b (List.mem_cons_of_mem _ hb))]

theorem rationaleMark_eq : rationaleMark = ' ' :: '(' :: "*Rationale:".toList := rfl

theorem rationaleOk_false_of {a : Char} {t : List Char} (h : t.head? ≠ some '(') :
    rationaleOk (a :: t) = false := by
  have hnone : dropPre rationaleMark (a :: t) = none := by
    rw [rationaleMark_eq, dropPre]
    by_cases ha : ' ' = a
    · rw [if_pos ha]
      cases t with
      | nil => rfl
      | cons b bs =>
        have hb : ¬ '(' = b := fun e => h (by simp [e.symm])
        rw [dropPre, if_neg hb]
    · rw [if_neg ha]
  simp [rationaleOk, hnone]

theorem crScan_append_content {M : List Char} (hM : M.head? ≠ some '(') :
    ∀ (c acc : List Char), '(' ∉ c →
      crScan acc (c ++ M) = crScan (c.reverse ++ acc) M := by
  intro c
  induction c with
  | nil =>
    intro acc _
    simp
  | cons a c2 ih =>
    intro acc hpar
    have hpar2 : '(' ∉ c2 := fun m => hpar (List.mem_cons_of_mem _ m)
    have hfalse : rationaleOk (a :: (c2 ++ M)) = false := by
      cases c2 with
      | nil => exact rationaleOk_false_of (by simpa using hM)
      | cons d ds =>
        have hd : d ≠ '(' := fun e => hpar2 (by simp [e])
        exact rationaleOk_false_of (by simp [hd])
    cases acc with
    | nil =>
      rw [List.cons_append]
      rw [show crScan [] (a :: (c2 ++ M)) = crScan [a] (c2 ++ M) from rfl]
      rw [ih [a] hpar2]
      simp
    | cons b bs =>
      rw [List.cons_append]
      rw [show crScan (b :: bs) (a :: (c2 ++ M)) =
        (if rationaleOk (a :: (c2 ++ M)) then
          some ((b :: bs).reverse, rationaleCapture (a :: (c2 ++ M)))
         else crScan (a :: b :: bs) (c2 ++ M)) from rfl]
      rw [hfalse]
      simp only [Bool.false_eq_true, if_false]
      rw [ih (a :: b :: bs) hpar2]
      simp

theorem crScan_mark (acc r : List Char) (hacc : acc ≠ []) :
    crScan acc (" (*Rationale: ".toList ++ r ++ "*)".toList) =
      some (acc.reverse, some (' ' :: r)) := by
  obtain ⟨b, bs, rfl⟩ : ∃ b bs, acc = b :: bs := by
    cases acc with
    | nil => exact absurd rfl hacc
    | cons b bs => exact ⟨b, bs, rfl⟩
  have hsplit : " (*Rationale: ".toList ++ r ++ "*)".toList =
      rationaleMark ++ (' ' :: (r ++ "*)".toList)) := by
    rw [rationaleMark_eq]
    simp
  have hdrop : dropPre rationaleMark (" (*Rationale: ".toList ++ r ++ "*)".toList) =
      some (' ' :: (r ++ "*)".toList)) := by
    rw [hsplit]
    exact dropPre_append _ _
  have hlen : (' ' :: (r ++ "*)".toList)).length = r.length + 3 := by simp
  have hok : rationaleOk (" (*Rationale: ".toList ++ r ++ "*)".toList) = true := by
    rw [rationaleOk, hdrop]
    simp only [hlen]
    have hsfx : ['*', ')'] <:+ ' ' :: (r ++ ['*', ')']) := ⟨' ' :: r, by simp⟩
    simp [List.isSuffixOf_iff_suffix, hsfx, decide_eq_true_eq]
  have hcap : rationaleCapture (" (*Rationale: ".toList ++ r ++ "*)".toList) =
      some (' ' :: r) := by
    rw [rationaleCapture, hdrop]
    simp only [hlen]
    rw [show (' ' :: (r ++ "*)".toList)) = (' ' :: r) ++ "*)".toList from by simp]
    rw [show r.length + 3 - 2 = r.length + 1 from by omega]
    rw [List.take_left' (by simp)]
  have hcons : " (*Rationale: ".toList ++ r ++ "*)".toList =
      ' ' :: ("(*Rationale: ".toList ++ r ++ "*)".toList) := by simp
  rw [hcons]
  rw [show crScan (b :: bs) (' ' :: ("(*Rationale: ".toList ++ r ++ "*)".toList)) =
    (if rationaleOk (' ' :: ("(*Rationale: ".toList ++ r ++ "*)".toList)) then
      some ((b :: bs).reverse,
        rationaleCapture (' ' :: ("(*Rationale: ".toList ++ r ++ "*)".toList)))
     else crScan (' ' :: b :: bs) ("(*Rationale: ".toList ++ r ++ "*)".toList)) from rfl]
  rw [← hcons, hok]
  simp only [if_true]
  rw [hcap]

theorem matchEntryBody_legacy (tn c r : List Char)
    (htn : tn ≠ []) (htnb : ']' ∉ tn) (hc : c ≠ []) (hcp : '(' ∉ c) :
    matchEntryBody (legacyLineOf (tn, c, r)) = some (tn, c, some (' ' :: r)) := by
  have hM : (" (*Rationale: ".toList ++ r ++ "*)".toList).head? ≠ some '(' := by
    rw [show " (*Rationale: ".toList ++ r ++ "*)".toList =
      ' ' :: ("(*Rationale: ".toList ++ r ++ "*)".toList) from by simp]
    simp
  have hline : legacyLineOf (tn, c, r) =
      "* **[".toList ++ (tn ++ ("]** ".toList ++
        (c ++ (" (*Rationale: ".toList ++ r ++ "*)".toList)))) := by
    simp [legacyLineOf]
  have h1 : dropPre ("* **[".toList) (legacyLineOf (tn, c, r)) =
      some (tn ++ ("]** ".toList ++
        (c ++ (" (*Rationale: ".toList ++ r ++ "*)".toList)))) := by
    rw [hline]
    exact dropPre_append _ _
  have h2 : (tn ++ ("]** ".toList ++
      (c ++ (" (*Rationale: ".toList ++ r ++ "*)".toList)))).takeWhile
        (fun x => x ≠ ']') = tn := by
    refine takeWhile_append_of_all _ (fun a ha => ?_) (fun a ha => ?_)
    · simp only [decide_eq_true_eq]
      exact fun e => htnb (e ▸ ha)
    · rw [show ("]** ".toList ++
        (c ++ (" (*Rationale: ".toList ++ r ++ "*)".toList))).head? = some ']' from by simp] at ha
      simp at ha
      rw [← ha]
      decide
  have h3 : (tn ++ ("]** ".toList ++
      (c ++ (" (*Rationale: ".toList ++ r ++ "*)".toList)))).drop tn.length =
      "]** ".toList ++ (c ++ (" (*Rationale: ".toList ++ r ++ "*)".toList)) :=
    List.drop_left _ _
  have h5 : crScan [] (c ++ (" (*Rationale: ".toList ++ r ++ "*)".toList)) =
      some (c, some (' ' :: r)) := by
    rw [crScan_append_content hM c [] hcp, List.append_nil]
    rw [crScan_mark c.reverse r (by simpa using hc), List.reverse_reverse]
  simp only [matchEntryBody, h1, h2, h3, if_neg htn, dropPre_append, h5]

theorem legacyLineOf_head (it : List Char × List Char × List Char) :
    (legacyLineOf it).head? = some '*' := by
  simp [legacyLineOf]

theorem legacyLineOf_getLast (it : List Char × List Char × List Char) :
    (legacyLineOf it).getLast? = some ')' := by
  have h : legacyLineOf it =
      ("* **[".toList ++ it.1 ++ "]** ".toList ++ it.2.1 ++
        " (*Rationale: ".toList ++ it.2.2 ++ ['*']) ++ [')'] := by
    simp [legacyLineOf]
  rw [h, List.getLast?_concat]

theorem legacyLineOf_no_nl (it : List Char × List Char × List Char)
    (h1 : '\n' ∉ it.1) (h2 : '\n' ∉ it.2.1) (h3 : '\n' ∉ it.2.2) :
    '\n' ∉ legacyLineOf it := by
  intro hmem
  simp only [legacyLineOf, List.mem_append] at hmem
  rcases hmem with ((((((hx | hx) | hx) | hx) | hx) | hx) | hx)
  · exact absurd hx (by decide)
  · exact h1 hx
  · exact absurd hx (by decide)
  · exact h2 hx
  · exact absurd hx (by decide)
  · exact h3 hx
  · exact absurd hx (by decide)

theorem legacyLineParse_of (it : List Char × List Char × List Char)
    (htn : it.1 ≠ []) (htnb : ']' ∉ it.1) (hc : it.2.1 ≠ []) (hcp : '(' ∉ it.2.1) :
    legacyLineParse (legacyLineOf it) = some (legacyParsedEntry it) := by
  have htrim : trimSpace (legacyLineOf it) = legacyLineOf it := by
    refine trimSpace_eq_self (fun a ha => ?_) (fun a ha => ?_)
    · rw [legacyLineOf_head] at ha
      simp at ha
      rw [← ha]
      decide
    · rw [legacyLineOf_getLast] at ha
      simp at ha
      rw [← ha]
      decide
  have hpre : ("* **[".toList).isPrefixOf (legacyLineOf it) = true := by
    refine isPrefixOf_eq_true_iff.mpr ⟨it.1 ++ "]** ".toList ++ it.2.1 ++
      " (*Rationale: ".toList ++ it.2.2 ++ "*)".toList, ?_⟩
    simp [legacyLineOf]
  obtain ⟨tn, c, r⟩ := it
  rw [legacyLineParse]
  simp only [htrim, hpre, if_true]
  rw [matchEntryBody_legacy tn c r htn htnb hc hcp]
  rfl

theorem legacyLineParse_nil : legacyLineParse [] = none := by decide

theorem scanAnchoredAux_nil (k : Nat) (ls : List (List Char))
    (h : ∀ l ∈ ls, entryIdMark.isPrefixOf l = false) : scanAnchoredAux k ls = [] := by
  induction ls generalizing k with
  | nil => cases k <;> rfl
  | cons l t ih =>
    cases k with
    | succ m =>
      rw [show scanAnchoredAux (m + 1) (l :: t) = scanAnchoredAux m t from rfl]
      exact ih m (fun x hx => h x (List.mem_cons_of_mem _ hx))
    | zero =>
      cases t with
      | nil => rfl
      | cons l2 t2 =>
        cases t2 with
        | nil => rfl
        | cons l3 rest =>
          have hm : matchAnchoredBlock l l2 l3 = none := by
            have hd : dropPre entryIdMark l = none :=
              dropPre_eq_none_of_no_match (fun hp => by
                have hb := isPrefixOf_eq_true_iff.mpr hp
                rw [h l (List.mem_cons_self _ _)] at hb
                exact Bool.false_ne_true hb)
            simp [matchAnchoredBlock, matchLine1, hd]
          rw [show scanAnchoredAux 0 (l :: l2 :: l3 :: rest) =
            (match matchAnchoredBlock l l2 l3 with
             | some m => m :: scanAnchoredAux 2 (l2 :: l3 :: rest)
             | none => scanAnchoredAux 0 (l2 :: l3 :: rest)) from rfl]
          rw [hm]
          exact ih 0 (fun x hx => h x (List.mem_cons_of_mem _ hx))

theorem parseV1Anchored_none {block : List Char}
    (h : ∀ l ∈ splitOnNL block, entryIdMark.isPrefixOf l = false) :
    parseV1Anchored block = none := by
  have hs : scanAnchored (splitOnNL block) = [] := scanAnchoredAux_nil 0 _ h
  simp [parseV1Anchored, hs]

theorem splitOnNL_joinNL {ls : List (List Char)} (hne : ls ≠ [])
    (h : ∀ l ∈ ls, '\n' ∉ l) : splitOnNL (joinNL ls) = ls := by
  induction ls with
  | nil => exact absurd rfl hne
  | cons l t ih =>
    cases t with
    | nil =>
      rw [show joinNL [l] = l from rfl]
      exact splitOnNL_no_nl (h l (List.mem_cons_self _ _))
    | cons l2 t2 =>
      rw [show joinNL (l :: l2 :: t2) = l ++ '\n' :: joinNL (l2 :: t2) from rfl]
      rw [splitOnNL_line _ (h l (List.mem_cons_self _ _))]
      rw [ih (by simp) (fun x hx => h x (List.mem_cons_of_mem _ hx))]

theorem joinNL_cons_ne_nil {l : List Char} (ls : List (List Char)) (h : l ≠ []) :
    joinNL (l :: ls) ≠ [] := by
  cases ls with
  | nil => exact h
  | cons l2 t2 =>
    rw [show joinNL (l :: l2 :: t2) = l ++ '\n' :: joinNL (l2 :: t2) from rfl]
    simp

theorem legacyLineOf_ne_nil (it : List Char × List Char × List Char) :
    legacyLineOf it ≠ [] := by
  intro h
  have := legacyLineOf_head it
  rw [h] at this
  simp at this

theorem filterMap_legacy_map (its : List (List Char × List Char × List Char))
    (hwf : ∀ it ∈ its, it.1 ≠ [] ∧ ']' ∉ it.1 ∧ it.2.1 ≠ [] ∧ '(' ∉ it.2.1) :
    (its.map legacyLineOf).filterMap legacyLineParse = its.map legacyParsedEntry := by
  induction its with
  | nil => rfl
  | cons it rest ih =>
    obtain ⟨h1, h2, h3, h4⟩ := hwf it (List.mem_cons_self _ _)
    rw [List.map_cons, List.filterMap_cons, legacyLineParse_of it h1 h2 h3 h4]
    rw [ih (fun x hx => hwf x (List.mem_cons_of_mem _ hx))]
    rfl

theorem parseLegacyInline_block (its : List (List Char × List Char × List Char))
    (pad : List (List Char))
    (hne : its ≠ []) (hpad : pad = [] ∨ pad = [[]])
    (hwf : ∀ it ∈ its, it.1 ≠ [] ∧ ']' ∉ it.1 ∧ '\n' ∉ it.1 ∧
      it.2.1 ≠ [] ∧ '(' ∉ it.2.1 ∧ '\n' ∉ it.2.1 ∧ '\n' ∉ it.2.2) :
    parseLegacyInline (joinNL (its.map legacyLineOf ++ pad)) =
      its.map legacyParsedEntry
    ∧ parseV1Anchored (joinNL (its.map legacyLineOf ++ pad)) = none := by
  have hlines : ∀ l ∈ its.map legacyLineOf ++ pad, '\n' ∉ l := by
    intro l hl
    rcases List.mem_append.mp hl with hm | hm
    · obtain ⟨it, hit, rfl⟩ := List.mem_map.mp hm
      obtain ⟨_, _, hn1, _, _, hn2, hn3⟩ := hwf it hit
      exact legacyLineOf_no_nl it hn1 hn2 hn3
    · rcases hpad with rfl | rfl
      · simp at hm
      · simp at hm
        simp [hm]
  have happne : its.map legacyLineOf ++ pad ≠ [] := by
    cases its with
    | nil => exact absurd rfl hne
    | cons it rest => simp
  have hsplit : splitOnNL (joinNL (its.map legacyLineOf ++ pad)) =
      its.map legacyLineOf ++ pad := splitOnNL_joinNL happne hlines
  constructor
  · rw [parseLegacyInline, hsplit, List.filterMap_append]
    rw [filterMap_legacy_map its (fun it hit => by
      obtain ⟨a, b, _, c, d, _, _⟩ := hwf it hit
      exact ⟨a, b, c, d⟩)]
    have h2 : pad.filterMap legacyLineParse = [] := by
      rcases hpad with rfl | rfl
      · rfl
      · simp [legacyLineParse_nil]
    rw [h2, List.append_nil]
  · apply parseV1Anchored_none
    rw [hsplit]
    intro l hl
    rcases List.mem_append.mp hl with hm | hm
    · obtain ⟨it, hit, rfl⟩ := List.mem_map.mp hm
      have hshape : legacyLineOf it = '*' :: (" **[".toList ++ it.1 ++ "]** ".toList ++
          it.2.1 ++ " (*Rationale: ".toList ++ it.2.2 ++ "*)".toList) := by
        simp [legacyLineOf]
      rw [hshape]
      exact isPrefixOf_false_of_head _ (rfl : entryIdMark.head? = some '<') (by decide)
    · rcases hpad with rfl | rfl
      · simp at hm
      · simp at hm
        rw [hm]
        rfl

/-! ## Claim theorems -/

/-- C1: the render→parse round-trip is claimed to preserve id, tag, tagName,
content, rationale and createdAt.  On the code it does not: for the valid
entry `c1Entry`, parsing its rendering yields an entry whose `content` is the
entry's timestamp, whose `rationale` is the entry's tag name, and whose
`createdAt` is the zero time — `parseV1Anchored` reads submatch 3 (time) as
content and submatch 4 (tag name) as rationale and never assigns
`CreatedAt`, although the regexp captures content and rationale in
submatches 5 and 6. -/
theorem c1_roundtrip_loses_content :
    parseV1Anchored (renderEntry c1Entry) = some [c1Parsed]
    ∧ c1Parsed.content = c1Entry.createdAt
    ∧ c1Parsed.content ≠ c1Entry.content
    ∧ c1Parsed.rationale = c1Entry.tagName
    ∧ c1Parsed.rationale ≠ c1Entry.rationale
    ∧ c1Parsed.createdAt ≠ c1Entry.createdAt := by decide

set_option maxRecDepth 8000 in
/-- C2: appending to a missing file is claimed to succeed for all four
document categories.  It does for constraints, decisions and patterns —
the synthesized document has exactly the four headings in order, the
`schema_version` front-matter key, and the rendered entry inside the target
section — but for `anti-patterns` the append always fails with
`section not found: Anti-patterns`, because `capitalize` upper-cases only
the first byte while the synthesized heading is `## Anti-Patterns`. -/
theorem c2_initial_append_four_sections :
    AppendEntry [] sectionAntiPatterns c2Entry c2Now =
      .error (.sectionNotFound ("Anti-patterns".toList))
    ∧ (AppendEntry [] sectionConstraints c2Entry c2Now).map headingsOf =
        .ok fourHeadings
    ∧ (AppendEntry [] sectionDecisions c2Entry c2Now).map headingsOf =
        .ok fourHeadings
    ∧ (AppendEntry [] sectionPatterns c2Entry c2Now).map headingsOf =
        .ok fourHeadings
    ∧ (AppendEntry [] sectionConstraints c2Entry c2Now).map
        (fun d => strContains d ("schema_version".toList)) = .ok true
    ∧ (AppendEntry [] sectionConstraints c2Entry c2Now).map
        (fun d => strContains (extractSection d sectionConstraints)
          (renderEntry c2Entry)) = .ok true
    ∧ (AppendEntry [] sectionDecisions c2Entry c2Now).map
        (fun d => strContains (extractSection d sectionDecisions)
          (renderEntry c2Entry)) = .ok true
    ∧ (AppendEntry [] sectionPatterns c2Entry c2Now).map
        (fun d => strContains (extractSection d sectionPatterns)
          (renderEntry c2Entry)) = .ok true := by decide

/-- C7: if either step of the atomic write fails — writing the temporary
file or renaming it over the real path — the error is surfaced, the
temporary file is removed, and the previously committed document at the
real path is unchanged byte for byte. -/
theorem c7_atomic_write_failure (fs : FS) (content : List Char)
    (oc : WriteOutcome) (h : oc ≠ .ok) :
    (atomicWrite fs content oc).2 = true
    ∧ (atomicWrite fs content oc).1.real = fs.real
    ∧ (atomicWrite fs content oc).1.tmp = none := by
  cases oc with
  | ok => exact absurd rfl h
  | writeFileFail leftover => exact ⟨rfl, rfl, rfl⟩
  | renameFail => exact ⟨rfl, rfl, rfl⟩

theorem c7_atomic_write_failure_witness :
    WriteOutcome.renameFail ≠ WriteOutcome.ok
    ∧ (atomicWrite c7Fs ("new contents".toList) .renameFail).2 = true
    ∧ (atomicWrite c7Fs ("new contents".toList) .renameFail).1.real = c7Fs.real
    ∧ (atomicWrite c7Fs ("new contents".toList) .renameFail).1.tmp = none :=
  ⟨by decide, c7_atomic_write_failure c7Fs ("new contents".toList) .renameFail (by decide)⟩

/-- C3: when the target heading is found at offset `start`, the appended
document is exactly the original up to the section end, then the rendered
entry and a newline, then the original remainder byte for byte. -/
theorem c3_append_preserves_bytes (D : List Char) (st : SectionType) (e : Entry)
    (tsNow : List Char) (start : Nat)
    (hstart : findSectionStart D (capitalize st) = Int.ofNat start) :
    AppendEntry D st e tsNow =
      .ok (D.take (findSectionEnd D start) ++ renderEntry e ++
        '\n' :: D.drop (findSectionEnd D start)) := by
  have hf : firstIdx (hh ++ capitalize st) D = some start := by
    rw [findSectionStart, goIndex] at hstart
    rcases hfi : firstIdx (hh ++ capitalize st) D with _ | n
    · rw [hfi] at hstart
      simp at hstart
    · rw [hfi] at hstart
      simp at hstart
      rw [hstart]
  have hD : D ≠ [] := by
    intro h
    rw [h] at hf
    rw [show firstIdx (hh ++ capitalize st) [] = none from rfl] at hf
    exact Option.noConfusion hf
  have hstartle : start ≤ D.length := firstIdx_le hf
  have hse : start ≤ findSectionEnd D start := by
    rcases h2 : (splitOnNL (D.drop (start + 3))).find? (fun l => hh.isPrefixOf l) with _ | lin
    · simp only [findSectionEnd, h2]
      exact hstartle
    · simp only [findSectionEnd, h2]
      omega
  have hsplice : D.take start ++ (D.take (findSectionEnd D start)).drop start =
      D.take (findSectionEnd D start) := by
    have ht : (D.take (findSectionEnd D start)).take start = D.take start := by
      rw [List.take_take, Nat.min_eq_left hse]
    rw [← ht, List.take_append_drop]
  rw [AppendEntry]
  simp only [if_neg hD]
  rw [hstart]
  rw [if_neg (show ¬ (Int.ofNat start = -1) from fun h => Int.noConfusion h)]
  rw [show (Int.ofNat start).toNat = start from rfl]
  rw [show ("\n".toList : List Char) = ['\n'] from rfl]
  rw [hsplice]
  simp [List.append_assoc]

theorem c3_append_preserves_bytes_witness :
    findSectionStart c3Doc (capitalize sectionConstraints) = Int.ofNat 0
    ∧ AppendEntry c3Doc sectionConstraints c3Entry [] =
        .ok (c3Doc.take (findSectionEnd c3Doc 0) ++ renderEntry c3Entry ++
          '\n' :: c3Doc.drop (findSectionEnd c3Doc 0)) :=
  ⟨by decide, c3_append_preserves_bytes c3Doc sectionConstraints c3Entry [] 0 (by decide)⟩

/-- C4: `GetSection` returns an empty `Section` of the requested type — never
an error — when the file is absent, the document is empty, the section
heading is absent, or the block parses to nothing under both formats; it
fails exactly when the underlying read fails with an I/O error. -/
theorem c4_getSection_never_fails_on_missing (st : SectionType) (D : List Char) :
    GetSection .absent st = .ok (⟨st, []⟩, false)
    ∧ GetSection (.present []) st = .ok (⟨st, []⟩, false)
    ∧ (findSectionStart D (capitalize st) = -1 →
        GetSection (.present D) st = .ok (⟨st, []⟩, false))
    ∧ (parseV1Anchored (extractSection D st) = none →
        parseLegacyInline (extractSection D st) = [] →
        GetSection (.present D) st = .ok (⟨st, []⟩, false))
    ∧ (∀ fs : FileState, (∃ err, GetSection fs st = .error err) ↔ fs = .ioError) := by
  refine ⟨rfl, rfl, ?_, ?_, ?_⟩
  · intro h
    have hext : extractSection D st = [] := by
      simp [extractSection, h]
    by_cases hD : D = []
    · simp [GetSection, readFile, hD]
    · simp [GetSection, readFile, hD, hext]
  · intro h1 h2
    by_cases hD : D = []
    · simp [GetSection, readFile, hD]
    · by_cases hb : extractSection D st = []
      · simp [GetSection, readFile, hD, hb]
      · simp [GetSection, readFile, hD, hb, h1, h2]
  · intro fs
    constructor
    · rintro ⟨err, herr⟩
      cases fs with
      | ioError => rfl
      | absent => simp [GetSection, readFile] at herr
      | present s =>
        by_cases h1 : s = []
        · simp [GetSection, readFile, h1] at herr
        · by_cases hb : extractSection s st = []
          · simp [GetSection, readFile, h1, hb] at herr
          · rcases hp : parseV1Anchored (extractSection s st) with _ | es
            · by_cases hl : parseLegacyInline (extractSection s st) = []
              · simp [GetSection, readFile, h1, hb, hp, hl] at herr
              · simp [GetSection, readFile, h1, hb, hp, hl] at herr
            · simp [GetSection, readFile, h1, hb, hp] at herr
    · rintro rfl
      exact ⟨(), rfl⟩

theorem c4_getSection_never_fails_on_missing_witness :
    GetSection (.present c4Doc) sectionConstraints = .ok (⟨sectionConstraints, []⟩, false)
    ∧ (∃ err, GetSection .ioError sectionConstraints = .error err) :=
  ⟨(c4_getSection_never_fails_on_missing sectionConstraints c4Doc).2.2.1 (by decide),
   ((c4_getSection_never_fails_on_missing sectionConstraints c4Doc).2.2.2.2 .ioError).mpr rfl⟩

theorem validateContent_forbidden {c : List Char}
    (h : strContains c ("\n".toList) = true ∨ strContains c ("\r".toList) = true ∨
      strContains c ("###".toList) = true ∨ strContains c ("```".toList) = true ∨
      strContains c ("<".toList) = true ∨ strContains c (">".toList) = true) :
    ValidateContent c = some .forbiddenContent := by
  unfold ValidateContent
  split_ifs <;> simp_all

theorem validateContent_listItem {c : List Char}
    (h1 : strContains c ("\n".toList) = false) (h2 : strContains c ("\r".toList) = false)
    (h3 : strContains c ("###".toList) = false) (h4 : strContains c ("```".toList) = false)
    (h5 : strContains c ("<".toList) = false) (h6 : strContains c (">".toList) = false)
    (h7 : ("- ".toList).isPrefixOf (trimSpace c) = true ∨
      ("* ".toList).isPrefixOf (trimSpace c) = true) :
    ValidateContent c = some .listItem := by
  unfold ValidateContent
  split_ifs <;> simp_all

/-- C5: the validation boundary.  With a valid category and tag, content of
exactly 2000 characters passing the content checks is accepted and 2001 is
rejected with the content-length error; content containing a newline,
carriage return, `###`, a triple backtick, `<` or `>` is rejected with the
forbidden-content error; content whose trimmed form starts with `- ` or
`* ` is rejected with the list-item error; an empty or over-50-character
tag is rejected with the tag error; a rationale longer than 500 characters
is rejected with the rationale error. -/
theorem c5_validation_boundaries :
    (∀ inp : AppendInput,
      isValidSectionType (if inp.category = [] then "note".toList else inp.category) = true →
      inp.tag ≠ [] → inp.tag.length ≤ 50 → inp.rationale.length ≤ 500 →
      inp.content.length = 2000 → ValidateContent inp.content = none →
      ValidateInput inp = none)
    ∧ (∀ inp : AppendInput,
      isValidSectionType (if inp.category = [] then "note".toList else inp.category) = true →
      inp.tag ≠ [] → inp.tag.length ≤ 50 →
      inp.content.length = 2001 → ValidateInput inp = some .invalidContent)
    ∧ (∀ inp : AppendInput,
      isValidSectionType (if inp.category = [] then "note".toList else inp.category) = true →
      inp.tag ≠ [] → inp.tag.length ≤ 50 →
      inp.content ≠ [] → inp.content.length ≤ 2000 →
      (strContains inp.content ("\n".toList) = true ∨
       strContains inp.content ("\r".toList) = true ∨
       strContains inp.content ("###".toList) = true ∨
       strContains inp.content ("```".toList) = true ∨
       strContains inp.content ("<".toList) = true ∨
       strContains inp.content (">".toList) = true) →
      ValidateInput inp = some .forbiddenContent)
    ∧ (∀ inp : AppendInput,
      isValidSectionType (if inp.category = [] then "note".toList else inp.category) = true →
      inp.tag ≠ [] → inp.tag.length ≤ 50 →
      inp.content ≠ [] → inp.content.length ≤ 2000 →
      strContains inp.content ("\n".toList) = false →
      strContains inp.content ("\r".toList) = false →
      strContains inp.content ("###".toList) = false →
      strContains inp.content ("```".toList) = false →
      strContains inp.content ("<".toList) = false →
      strContains inp.content (">".toList) = false →
      (("- ".toList).isPrefixOf (trimSpace inp.content) = true ∨
       ("* ".toList).isPrefixOf (trimSpace inp.content) = true) →
      ValidateInput inp = some .listItem)
    ∧ (∀ inp : AppendInput,
      isValidSectionType (if inp.category = [] then "note".toList else inp.category) = true →
      inp.tag = [] → ValidateInput inp = some .invalidTag)
    ∧ (∀ inp : AppendInput,
      isValidSectionType (if inp.category = [] then "note".toList else inp.category) = true →
      50 < inp.tag.length → ValidateInput inp = some .invalidTag)
    ∧ (∀ inp : AppendInput,
      isValidSectionType (if inp.category = [] then "note".toList else inp.category) = true →
      inp.tag ≠ [] → inp.tag.length ≤ 50 →
      inp.content ≠ [] → inp.content.length ≤ 2000 →
      ValidateContent inp.content = none →
      500 < inp.rationale.length → ValidateInput inp = some .invalidRationale) := by
  refine ⟨?_, ?_, ?_, ?_, ?_, ?_, ?_⟩
  · intro inp hcat ht1 ht2 hr hlen hvc
    simp only [ValidateInput, hcat]
    rw [if_neg (by simp)]
    rw [if_neg (fun h => ht1 (List.length_eq_zero.mp h))]
    rw [if_neg (by omega)]
    rw [if_neg (by omega)]
    rw [if_neg (by omega)]
    rw [hvc]
    rw [if_neg (by omega)]
  · intro inp hcat ht1 ht2 hlen
    simp only [ValidateInput, hcat]
    rw [if_neg (by simp)]
    rw [if_neg (fun h => ht1 (List.length_eq_zero.mp h))]
    rw [if_neg (by omega)]
    rw [if_neg (by omega)]
    rw [if_pos (by omega)]
  · intro inp hcat ht1 ht2 hc1 hc2 hforb
    simp only [ValidateInput, hcat]
    rw [if_neg (by simp)]
    rw [if_neg (fun h => ht1 (List.length_eq_zero.mp h))]
    rw [if_neg (by omega)]
    rw [if_neg (fun h => hc1 (List.length_eq_zero.mp h))]
    rw [if_neg (by omega)]
    rw [validateContent_forbidden hforb]
  · intro inp hcat ht1 ht2 hc1 hc2 h1 h2 h3 h4 h5 h6 h7
    simp only [ValidateInput, hcat]
    rw [if_neg (by simp)]
    rw [if_neg (fun h => ht1 (List.length_eq_zero.mp h))]
    rw [if_neg (by omega)]
    rw [if_neg (fun h => hc1 (List.length_eq_zero.mp h))]
    rw [if_neg (by omega)]
    rw [validateContent_listItem h1 h2 h3 h4 h5 h6 h7]
  · intro inp hcat htag
    simp only [ValidateInput, hcat]
    rw [if_neg (by simp)]
    rw [if_pos (List.length_eq_zero.mpr htag)]
  · intro inp hcat htag
    simp only [ValidateInput, hcat]
    rw [if_neg (by simp)]
    rw [if_neg (by omega)]
    rw [if_pos htag]
  · intro inp hcat ht1 ht2 hc1 hc2 hvc hr
    simp only [ValidateInput, hcat]
    rw [if_neg (by simp)]
    rw [if_neg (fun h => ht1 (List.length_eq_zero.mp h))]
    rw [if_neg (by omega)]
    rw [if_neg (fun h => hc1 (List.length_eq_zero.mp h))]
    rw [if_neg (by omega)]
    rw [hvc]
    rw [if_pos hr]

theorem strContains_replicate_head_ne {pat : List Char} {d c : Char} (n : Nat)
    (hp : pat.head? = some d) (hne : d ≠ c) :
    strContains (List.replicate n c) pat = false := by
  have hfi : ∀ m, firstIdx pat (List.replicate m c) = none := by
    intro m
    induction m with
    | zero =>
      cases pat with
      | nil => simp at hp
      | cons a ps => rfl
    | succ m ih =>
      rw [List.replicate_succ, firstIdx, isPrefixOf_false_of_head _ hp hne]
      simp [ih]
  simp [strContains, hfi n]

theorem validateContent_replicate_a (n : Nat) :
    ValidateContent (List.replicate (n + 1) 'a') = none := by
  have h1 := @strContains_replicate_head_ne ("\n".toList) '\n' 'a' (n + 1) rfl (by decide)
  have h2 := @strContains_replicate_head_ne ("\r".toList) '\r' 'a' (n + 1) rfl (by decide)
  have h3 := @strContains_replicate_head_ne ("###".toList) '#' 'a' (n + 1) rfl (by decide)
  have h4 := @strContains_replicate_head_ne ("```".toList) '`' 'a' (n + 1) rfl (by decide)
  have h5 := @strContains_replicate_head_ne ("<".toList) '<' 'a' (n + 1) rfl (by decide)
  have h6 := @strContains_replicate_head_ne (">".toList) '>' 'a' (n + 1) rfl (by decide)
  have htrim : trimSpace (List.replicate (n + 1) 'a') = List.replicate (n + 1) 'a' := by
    refine trimSpace_eq_self (fun a ha => ?_) (fun a ha => ?_)
    · rw [List.replicate_succ] at ha
      simp at ha
      rw [← ha]
      decide
    · rw [List.replicate_succ' n 'a'] at ha
      rw [List.getLast?_concat] at ha
      simp at ha
      rw [← ha]
      decide
  have hp1 : ("- ".toList).isPrefixOf (trimSpace (List.replicate (n + 1) 'a')) = false := by
    rw [htrim, List.replicate_succ]
    exact isPrefixOf_false_of_head _ rfl (by decide)
  have hp2 : ("* ".toList).isPrefixOf (trimSpace (List.replicate (n + 1) 'a')) = false := by
    rw [htrim, List.replicate_succ]
    exact isPrefixOf_false_of_head _ rfl (by decide)
  simp only [ValidateContent, h1, h2, h3, h4, h5, h6, hp1, hp2]
  simp

theorem c5_validation_boundaries_witness :
    ValidateInput c5InpOk = none
    ∧ ValidateInput c5InpLong = some .invalidContent
    ∧ ValidateInput c5InpBad = some .forbiddenContent
    ∧ ValidateInput c5InpList = some .listItem :=
  ⟨c5_validation_boundaries.1 c5InpOk (by decide) (by decide) (by decide) (by decide)
      (show (List.replicate 2000 'a').length = 2000 from List.length_replicate 2000 'a')
      (show ValidateContent (List.replicate 2000 'a') = none from
        validateContent_replicate_a 1999),
   c5_validation_boundaries.2.1 c5InpLong (by decide) (by decide) (by decide)
      (show (List.replicate 2001 'a').length = 2001 from List.length_replicate 2001 'a'),
   c5_validation_boundaries.2.2.1 c5InpBad (by decide) (by decide) (by decide) (by decide)
      (by decide) (by decide),
   c5_validation_boundaries.2.2.2.1 c5InpList (by decide) (by decide) (by decide) (by decide)
      (by decide) (by decide) (by decide) (by decide) (by decide) (by decide) (by decide)
      (by decide)⟩

/-- C6 counterexample: for a section block consisting of the single legacy
line `* **[API]** Use X (*Rationale: because*)`, `GetSection` returns an
entry whose rationale is `" because"` — the captured group keeps the space
separating `Rationale:` from the text — not the rationale part `"because"`
the claim describes. -/
theorem c6_legacy_rationale_counterexample :
    GetSection (.present c6Doc) sectionConstraints =
      .ok (⟨sectionConstraints, [c6ParsedEntry]⟩, true)
    ∧ c6ParsedEntry.rationale = " because".toList
    ∧ ¬ c6ParsedEntry.rationale = "because".toList := by decide

/-- C6 (amended): for a section block consisting only of legacy-format lines
`* **[TagName]** Content (*Rationale: R*)` whose parts are well formed
(non-empty tag name without `]`, non-empty content without `(`, no newlines),
`GetSection` returns one entry per line with empty id, zero `createdAt`,
the tag and content of the line, and as rationale the text after
`Rationale:` including the separating space (`" " ++ R`), and reports the
legacy-compatibility warning. -/
theorem c6_legacy_fallback (D : List Char) (stn : SectionType)
    (its : List (List Char × List Char × List Char)) (pad : List (List Char))
    (hne : its ≠ []) (hpad : pad = [] ∨ pad = [[]])
    (hwf : ∀ it ∈ its, it.1 ≠ [] ∧ ']' ∉ it.1 ∧ '\n' ∉ it.1 ∧
      it.2.1 ≠ [] ∧ '(' ∉ it.2.1 ∧ '\n' ∉ it.2.1 ∧ '\n' ∉ it.2.2)
    (hD : D ≠ [])
    (hext : extractSection D stn = joinNL (its.map legacyLineOf ++ pad)) :
    GetSection (.present D) stn = .ok (⟨stn, its.map legacyParsedEntry⟩, true) := by
  obtain ⟨hleg, hanch⟩ := parseLegacyInline_block its pad hne hpad hwf
  have hblock : joinNL (its.map legacyLineOf ++ pad) ≠ [] := by
    cases its with
    | nil => exact absurd rfl hne
    | cons it rest =>
      rw [List.map_cons, List.cons_append]
      exact joinNL_cons_ne_nil _ (legacyLineOf_ne_nil it)
  have hlegne : ¬ (its.map legacyParsedEntry = []) := by
    cases its with
    | nil => exact absurd rfl hne
    | cons a b => simp
  rw [GetSection]
  simp only [readFile]
  rw [if_neg hD]
  simp only [hext]
  rw [if_neg hblock, hanch, hleg, if_neg hlegne]

theorem c6_legacy_fallback_witness :
    GetSection (.present c6Doc) sectionConstraints =
      .ok (⟨sectionConstraints,
        [legacyParsedEntry ("API".toList, "Use X".toList, "because".toList)]⟩, true) :=
  c6_legacy_fallback c6Doc sectionConstraints
    [("API".toList, "Use X".toList, "because".toList)] []
    (by decide) (Or.inl rfl) (by decide) (by decide) (by decide)

/-- C8 counterexample: in `c8Doc` the first `## `-prefixed line after the
heading is `## Decisions` at byte offset 30, but its text already occurs at
offset 17 inside the earlier line `x ## Decisions`, and `findSectionEnd`
returns that earlier, mid-line offset. -/
theorem c8_find_section_end_counterexample :
    findSectionEnd c8Doc 0 = 17
    ∧ findSectionEndSpec c8Doc 0 = 30
    ∧ ¬ findSectionEnd c8Doc 0 = findSectionEndSpec c8Doc 0 := by decide

/-- C8 (amended): `findSectionEnd` returns the document length when no line
of `content[start+3:]` begins with `"## "`; otherwise, with `lin` the first
such line, it returns `start + 3 + p` where `p` is the offset of the first
occurrence of `lin`'s text in `content[start+3:]` — which equals the
offset of the line itself (the claim as stated) exactly when that text does
not occur earlier as a substring. -/
theorem c8_find_section_end_amended (content : List Char) (start : Nat) :
    ((splitOnNL (content.drop (start + 3))).find? (fun l => hh.isPrefixOf l) = none →
      findSectionEnd content start = content.length)
    ∧ (∀ lin p,
        (splitOnNL (content.drop (start + 3))).find? (fun l => hh.isPrefixOf l) = some lin →
        lin <+: (content.drop (start + 3)).drop p →
        (∀ q, q < p → ¬ lin <+: (content.drop (start + 3)).drop q) →
        findSectionEnd content start = start + 3 + p
        ∧ (findSectionEndSpec content start = start + 3 + p →
           findSectionEnd content start = findSectionEndSpec content start)) := by
  constructor
  · intro h
    simp only [findSectionEnd, h]
  · intro lin p hfind hpre hnone
    have hfi : firstIdx lin (content.drop (start + 3)) = some p :=
      firstIdx_eq_some hpre hnone
    have hend : findSectionEnd content start = start + 3 + p := by
      simp only [findSectionEnd, hfind, goIndex, hfi]
      rfl
    exact ⟨hend, fun hspec => by rw [hend, hspec]⟩

theorem c8_find_section_end_amended_witness :
    findSectionEnd c8GoodDoc 0 = 0 + 3 + 14
    ∧ (findSectionEndSpec c8GoodDoc 0 = 0 + 3 + 14 →
       findSectionEnd c8GoodDoc 0 = findSectionEndSpec c8GoodDoc 0) :=
  (c8_find_section_end_amended c8GoodDoc 0).2 ("## Decisions".toList) 14
    (by decide) (by decide) (by decide)

theorem createInitialContent_eq (ts : List Char) :
    createInitialContent ts = (fmHead ++ ts) ++ fmTail := rfl

/-- C10: an `AppendInput` with an empty category passes `ValidateInput`
(which defaults only its local copy to `"note"`), the heading search string
degenerates to `"## "`, and `AppendMemory` on a freshly synthesized document
behaves exactly like an append to `constraints` — the entry lands in the
first `## `-headed section — instead of being rejected or stored under a
`note` section. -/
theorem c10_empty_category_goes_to_constraints (inp : AppendInput)
    (id nowT ts : List Char)
    (hcat : inp.category = [])
    (ht1 : inp.tag ≠ []) (ht2 : inp.tag.length ≤ 50)
    (hc1 : inp.content ≠ []) (hc2 : inp.content.length ≤ 2000)
    (hvc : ValidateContent inp.content = none)
    (hr : inp.rationale.length ≤ 500)
    (hts : '#' ∉ ts) :
    ValidateInput inp = none
    ∧ capitalize inp.category = []
    ∧ AppendMemory (createInitialContent ts) inp id nowT ts =
        AppendEntry (createInitialContent ts) sectionConstraints
          (PrepareEntry inp id nowT) ts
    ∧ (∃ D2, AppendMemory (createInitialContent ts) inp id nowT ts = .ok D2) := by
  have hX : '#' ∉ fmHead ++ ts := by
    intro hm
    rcases List.mem_append.mp hm with hm | hm
    · exact absurd hm (by decide)
    · exact hts hm
  have hidx1 : firstIdx hh ((fmHead ++ ts) ++ fmTail) =
      some ((fmHead ++ ts).length + 7) := by
    rw [firstIdx_append (show hh.head? = some '#' from rfl) hX]
    rw [show firstIdx hh fmTail = some 7 from by decide]
    rfl
  have hidx2 : firstIdx (hh ++ "Constraints".toList) ((fmHead ++ ts) ++ fmTail) =
      some ((fmHead ++ ts).length + 7) := by
    rw [firstIdx_append (show (hh ++ "Constraints".toList).head? = some '#' from rfl) hX]
    rw [show firstIdx (hh ++ "Constraints".toList) fmTail = some 7 from by decide]
    rfl
  have hs1 : findSectionStart (createInitialContent ts) (capitalize ([] : List Char)) =
      Int.ofNat ((fmHead ++ ts).length + 7) := by
    rw [show capitalize ([] : List Char) = [] from rfl]
    rw [findSectionStart, List.append_nil, createInitialContent_eq, goIndex, hidx1]
  have hs2 : findSectionStart (createInitialContent ts) (capitalize sectionConstraints) =
      Int.ofNat ((fmHead ++ ts).length + 7) := by
    rw [show capitalize sectionConstraints = "Constraints".toList from by decide]
    rw [findSectionStart, createInitialContent_eq, goIndex, hidx2]
  have hCne : createInitialContent ts ≠ [] := by
    intro h
    rw [createInitialContent_eq] at h
    rcases List.append_eq_nil.mp h with ⟨-, h2⟩
    exact absurd h2 (by decide)
  have hneg : ¬ (Int.ofNat ((fmHead ++ ts).length + 7) = -1) :=
    fun h => Int.noConfusion h
  have hmain : AppendMemory (createInitialContent ts) inp id nowT ts =
      AppendEntry (createInitialContent ts) sectionConstraints
        (PrepareEntry inp id nowT) ts := by
    rw [AppendMemory, hcat]
    rw [AppendEntry, AppendEntry]
    simp only [if_neg hCne]
    rw [hs1, hs2]
    rw [if_neg hneg, if_neg hneg]
  refine ⟨?_, ?_, hmain, ?_⟩
  · simp only [ValidateInput, hcat]
    rw [if_neg (by decide)]
    rw [if_neg (fun h => ht1 (List.length_eq_zero.mp h))]
    rw [if_neg (by omega)]
    rw [if_neg (fun h => hc1 (List.length_eq_zero.mp h))]
    rw [if_neg (by omega)]
    rw [hvc]
    rw [if_neg (by omega)]
  · rw [hcat]
    rfl
  · rcases happ : AppendEntry (createInitialContent ts) sectionConstraints
        (PrepareEntry inp id nowT) ts with err | D2
    · exfalso
      rw [AppendEntry] at happ
      simp only [if_neg hCne] at happ
      rw [hs2] at happ
      rw [if_neg hneg] at happ
      exact Except.noConfusion happ
    · exact ⟨D2, by rw [hmain, happ]⟩

theorem c10_empty_category_goes_to_constraints_witness :
    ValidateInput c10Inp = none
    ∧ capitalize c10Inp.category = []
    ∧ AppendMemory (createInitialContent ("2024-01-15T10:30:00Z".toList)) c10Inp
        ("0a1b".toList) ("2024-01-15T10:30:00Z".toList) ("2024-01-15T10:30:00Z".toList) =
      AppendEntry (createInitialContent ("2024-01-15T10:30:00Z".toList)) sectionConstraints
        (PrepareEntry c10Inp ("0a1b".toList) ("2024-01-15T10:30:00Z".toList))
        ("2024-01-15T10:30:00Z".toList)
    ∧ (∃ D2, AppendMemory (createInitialContent ("2024-01-15T10:30:00Z".toList)) c10Inp
        ("0a1b".toList) ("2024-01-15T10:30:00Z".toList) ("2024-01-15T10:30:00Z".toList) =
        .ok D2) :=
  c10_empty_category_goes_to_constraints c10Inp ("0a1b".toList)
    ("2024-01-15T10:30:00Z".toList) ("2024-01-15T10:30:00Z".toList)
    (by decide) (by decide) (by decide) (by decide) (by decide) (by decide) (by decide)
    (by decide)
